import Mathlib

/-!
Verification development for the `sphinx-marimo` repository.

The notebook-transformation layer (`src/sphinx_marimo/transform.py`) is embedded
as executable functions on `List Char` (Python `str` values).  The regex
`@app\.cell(?:\([^)]*\))?` used by `re.split` is modelled by `matchMarker`
(literal token plus an optional greedy parenthesis group that needs a closing
parenthesis somewhere in the rest of the text), and `re.split` with a capturing
group is modelled by `pySplit`, which returns the leading text before the first
match together with the list of (delimiter, following text) pairs.

The gallery integration layer (`src/sphinx_marimo/gallery_integration.py`) is
embedded with the external `marimo` subprocess invocations as an oracle
(`ExtWorld`), file reads of the manifest as an explicit `ManifestRead` value and
the JSON document built by `_save_gallery_manifest` as a small JSON AST.
-/

set_option maxHeartbeats 2000000
set_option maxRecDepth 4000

/-- Characters of a string literal; all Python strings are modelled as `List Char`. -/
def strL (s : String) : List Char := s.toList

/-- The literal token of the cell-delimiter regex of `_parse_notebook`
(`transform.py` line 19). -/
def appMarker : List Char := strL "@app.cell"

/-- The entry-point-guard token searched for by `_parse_notebook`
(`transform.py` lines 30 and 38). -/
def guardMarker : List Char := strL "if __name__"

/-- Python `'in'` on strings: `hasSub p l` is true iff `p` occurs as a
contiguous substring of `l`. -/
def hasSub (p : List Char) : List Char → Bool
  | [] => p.isEmpty
  | c :: rest => p.isPrefixOf (c :: rest) || hasSub p rest

/-- First occurrence split: `splitFirst t l = some (a, b)` when `l = a ++ t :: b`
and `t` does not occur in `a`; `none` when `t` does not occur in `l`. -/
def splitFirst (t : Char) : List Char → Option (List Char × List Char)
  | [] => none
  | c :: rest =>
    if c = t then some ([], rest)
    else
      match splitFirst t rest with
      | some (a, b) => some (c :: a, b)
      | none => none

/-- One match of the delimiter regex `@app\.cell(?:\([^)]*\))?` at the head of
`l`: returns the matched delimiter and the remaining text.  The optional group
consumes `(...)` exactly when `(` follows immediately and some `)` occurs later
(the class `[^)]*` stops at the first `)`). -/
def matchMarker (l : List Char) : Option (List Char × List Char) :=
  if appMarker.isPrefixOf l then
    match l.drop 9 with
    | c :: r =>
      if c = '(' then
        match splitFirst ')' r with
        | some (inside, after) => some (appMarker ++ '(' :: (inside ++ [')']), after)
        | none => some (appMarker, c :: r)
      else some (appMarker, c :: r)
    | [] => some (appMarker, [])
  else none

/-- Fuel-indexed worker for `pySplit` (fuel makes the recursion structural, so
that concrete inputs evaluate inside the kernel). -/
def pySplitF : Nat → List Char → List Char × List (List Char × List Char)
  | _, [] => ([], [])
  | 0, l => (l, [])
  | f + 1, c :: rest =>
    match matchMarker (c :: rest) with
    | some (d, after) =>
      let p := pySplitF f after
      ([], (d, p.1) :: p.2)
    | none =>
      let p := pySplitF f rest
      (c :: p.1, p.2)

/-- `re.split(r'(@app\.cell(?:\([^)]*\))?)', content)` of `_parse_notebook`:
the text before the first delimiter, and the list of (delimiter, text up to the
next delimiter) pairs, scanning left to right without overlaps. -/
def pySplit (l : List Char) : List Char × List (List Char × List Char) :=
  pySplitF l.length l

/-- The six whitespace characters stripped by Python `str.strip()` /
matched by `\s` (ASCII range, the only one exercised by notebook sources). -/
def isPyWS (c : Char) : Bool :=
  c = ' ' || c = '\t' || c = '\n' || c = '\r' || c = '\x0B' || c = '\x0C'

/-- Python `str.strip()`. -/
def pyStrip (l : List Char) : List Char :=
  ((l.dropWhile isPyWS).reverse.dropWhile isPyWS).reverse

/-- `line.strip().startswith('if __name__')` (`transform.py` line 38). -/
def isGuardLine (l : List Char) : Bool :=
  guardMarker.isPrefixOf (pyStrip l)

/-- Handling of the final (delimiter, text) pair by `_parse_notebook`
(lines 30-51): when the text contains `'if __name__'`, lines from the first
guard line onward are split off into the postamble, and the cell is kept only
when some line precedes the guard. -/
def procLast (d c : List Char) : List (List Char) × List Char :=
  if hasSub guardMarker c then
    let lines := c.splitOn '\n'
    let actual := lines.takeWhile (fun l => !(isGuardLine l))
    let posts := lines.dropWhile (fun l => !(isGuardLine l))
    ((if actual.isEmpty then [] else [d ++ List.intercalate ['\n'] actual]),
      List.intercalate ['\n'] posts)
  else ([d ++ c], [])

/-- The loop of `_parse_notebook` over the (delimiter, text) pairs: every pair
except the last becomes the cell `delimiter ++ text`; the last one goes through
the `if __name__` special case. -/
def procPairs : List (List Char × List Char) → List (List Char) × List Char
  | [] => ([], [])
  | [(d, c)] => procLast d c
  | (d, c) :: q :: rest =>
    let p := procPairs (q :: rest)
    ((d ++ c) :: p.1, p.2)

/-- `_parse_notebook(content)`: (preamble, cells, postamble). -/
def parseNotebook (content : List Char) : List Char × List (List Char) × List Char :=
  let s := pySplit content
  (s.1, procPairs s.2)

/-- Joins `preamble + "".join(cells) + postamble`, the serialization used by
both `prepend_markdown` and `move_imports_to_top`. -/
def reassembleNb (t : List Char × List (List Char) × List Char) : List Char :=
  t.1 ++ t.2.1.flatten ++ t.2.2

/-- Python `\w` (ASCII fragment, the one exercised by notebook sources). -/
def isWordChar (c : Char) : Bool := c.isAlphanum || c = '_'

/-- Literal piece of a regex pattern: match `lit` at the head, return the rest. -/
def litP (lit l : List Char) : Option (List Char) :=
  if lit.isPrefixOf l then some (l.drop lit.length) else none

/-- `\s+`: at least one whitespace character, consumed greedily (the following
pattern pieces start with non-whitespace literals, so greedy matching is
equivalent to the regex semantics). -/
def wsP : List Char → Option (List Char)
  | [] => none
  | c :: r => if isPyWS c then some (r.dropWhile isPyWS) else none

/-- `import\s+marimo` matched at the head of `l`. -/
def matchImportMarimo (l : List Char) : Option (List Char) :=
  match litP (strL "import") l with
  | none => none
  | some r1 =>
    match wsP r1 with
    | none => none
    | some r2 => litP (strL "marimo") r2

/-- `import\s+marimo\s+as\s+mo` matched at the head of `l`. -/
def matchImportMarimoAsMo (l : List Char) : Option (List Char) :=
  match matchImportMarimo l with
  | none => none
  | some r1 =>
    match wsP r1 with
    | none => none
    | some r2 =>
      match litP (strL "as") r2 with
      | none => none
      | some r3 =>
        match wsP r3 with
        | none => none
        | some r4 => litP (strL "mo") r4

/-- The trailing `\b` of the patterns: the character after the match (which
ends in the word character `o`) must be absent or not a word character. -/
def boundaryAfter : List Char → Bool
  | [] => true
  | c :: _ => !(isWordChar c)

/-- `re.search` for a pattern of the shape `\b<piece>\b` where `<piece>` starts
and ends with word characters: try the piece at every position whose preceding
character is absent or not a word character, requiring a boundary after. -/
def searchPat (pat : List Char → Option (List Char)) : Bool → List Char → Bool
  | _, [] => false
  | atB, c :: rest =>
    (atB &&
      (match pat (c :: rest) with
       | some r => boundaryAfter r
       | none => false)) ||
    searchPat pat (!(isWordChar c)) rest

/-- `re.search(r'\bimport\s+marimo\b', cell)` of `move_imports_to_top`. -/
def containsImportMarimo (cell : List Char) : Bool :=
  searchPat matchImportMarimo true cell

/-- `re.search(r'\bimport\s+marimo\s+as\s+mo\b', cell)` of `prepend_markdown`. -/
def containsMoImport (cell : List Char) : Bool :=
  searchPat matchImportMarimoAsMo true cell

/-- Text of the f-string of `_create_markdown_cell` before the interpolated
`{markdown_content}`. -/
def mdFullPre : List Char :=
  strL "@app.cell\ndef __():\n    import marimo as mo\n    return (mo,)\n\n\n@app.cell(hide_code=True)\ndef __(mo):\n    mo.md(\n        r\"\"\"\n        "

/-- Text of both markdown-cell f-strings after the interpolated
`{markdown_content}` / `{markdown_text}`. -/
def mdTailPost : List Char :=
  strL "\n        \"\"\"\n    )\n    return\n\n\n"

/-- `_create_markdown_cell(markdown_content)`: the import cell followed by the
markdown display cell, with the markdown interpolated into the f-string. -/
def createMarkdownCell (md : List Char) : List Char :=
  mdFullPre ++ md ++ mdTailPost

/-- Text of the f-string of the reuse branch of `prepend_markdown`
(lines 109-119) before the interpolated `{markdown_text}`. -/
def mdReusePre : List Char :=
  strL "@app.cell(hide_code=True)\ndef __(mo):\n    mo.md(\n        r\"\"\"\n        "

/-- The markdown display cell alone (reuse branch of `prepend_markdown`). -/
def reuseMarkdownCell (md : List Char) : List Char :=
  mdReusePre ++ md ++ mdTailPost

/-- `prepend_markdown(content, markdown_text)` (`transform.py` lines 91-125). -/
def prepend_markdown (content md : List Char) : List Char :=
  let p := parseNotebook content
  let has_mo := p.2.1.any containsMoImport
  let markdown_cell := if has_mo then reuseMarkdownCell md else createMarkdownCell md
  p.1 ++ (markdown_cell :: p.2.1).flatten ++ p.2.2

/-- `move_imports_to_top(content)` (`transform.py` lines 128-151). -/
def move_imports_to_top (content : List Char) : List Char :=
  let p := parseNotebook content
  let part := p.2.1.partition containsImportMarimo
  p.1 ++ (part.1 ++ part.2).flatten ++ p.2.2

/-- The pure content transformation performed by `transform_notebook`
(lines 172-181): prepend first (skipped for a falsy, i.e. empty or absent,
markdown), then reorder imports.  The surrounding file read/write is elided. -/
def transform_content (content : List Char) (pmd : Option (List Char)) (mit : Bool) : List Char :=
  let c1 :=
    match pmd with
    | some md => if md.isEmpty then content else prepend_markdown content md
    | none => content
  if mit then move_imports_to_top c1 else c1

/-- The delimiter produced by the display-cell decorator `@app.cell(hide_code=True)`. -/
def m2delim : List Char := strL "@app.cell(hide_code=True)"

/-- Body of the import cell of `_create_markdown_cell` (text between its two
delimiters). -/
def impBody : List Char :=
  strL "\ndef __():\n    import marimo as mo\n    return (mo,)\n\n\n"

/-- Text of the display cell between its delimiter and the markdown. -/
def dispT1 : List Char :=
  strL "\ndef __(mo):\n    mo.md(\n        r\"\"\"\n        "

/-- `none` last-cell guard split: true when the final (delimiter, text) pair of
a split (if any) contains no line triggering the `if __name__` special case, so
that `_parse_notebook` keeps every cell intact and returns an empty postamble. -/
def lastNoGuard (ps : List (List Char × List Char)) : Bool :=
  match ps.getLast? with
  | none => true
  | some (_, c) => ((c.splitOn '\n').dropWhile (fun l => !(isGuardLine l))).isEmpty

/-- Import-sorted cell list: the cells containing the `import marimo` marker
already form a prefix of the cell list. -/
def importSorted (cells : List (List Char)) : Bool :=
  cells == cells.filter containsImportMarimo ++ cells.filter (fun c => !(containsImportMarimo c))

/-- Concatenation of the (delimiter, text) pairs of a split, i.e. the text the
split was produced from, minus the leading preamble. -/
def flattenPairs (ps : List (List Char × List Char)) : List Char :=
  (ps.map (fun p => p.1 ++ p.2)).flatten

/-- Result of one external `marimo` subprocess invocation
(`subprocess.run(..., capture_output=True, text=True)`). -/
structure CmdResult where
  returncode : Int
  stdout : List Char
  stderr : List Char

/-- Oracle for the two external commands run per notebook by
`_convert_notebook_impl`: `marimo convert <ipynb> -o <py>` keyed by the input
notebook, and `marimo export html-wasm --mode edit <py> -o <html>` keyed by the
intermediate file. -/
structure ExtWorld where
  convertRes : List Char → CmdResult
  exportRes : List Char → CmdResult

/-- The worker-local error raised by `_convert_notebook_impl` on a non-zero
exit status, carrying the message of the `RuntimeError` and the captured
standard output/error that the implementation logs before raising. -/
structure ConvFailure where
  message : List Char
  loggedOut : List Char
  loggedErr : List Char

/-- Python `pathlib.Path(p).name`: the last path component. -/
def pathBaseName (p : List Char) : List Char :=
  (((p.splitOn '/').filter (fun s => !s.isEmpty)).getLastD [])

/-- Python `pathlib.Path(p).stem`: the base name without its last extension
(a leading dot alone does not count as an extension). -/
def pathStem (p : List Char) : List Char :=
  let b := pathBaseName p
  match splitFirst '.' b.reverse with
  | some (_, rest) => if rest.isEmpty then b else rest.reverse
  | none => b

/-- `_convert_notebook_impl(ipynb_file, marimo_py_file, marimo_html_file, ...)`
(`gallery_integration.py` lines 52-110): run the convert command, fail on a
non-zero exit (logging captured stdout/stderr, modelled by the fields of
`ConvFailure`), then run the export command with the same error contract, and
return the produced html path.  The file writes performed by the external
commands, the in-place pure transformation step and the joblib memoization are
elided: they do not affect the success/failure result modelled here. -/
def convertNotebookImpl (w : ExtWorld) (dir ipynb : List Char) :
    Except ConvFailure (List Char) :=
  let stem := pathStem ipynb
  let pyFile := dir ++ strL "/" ++ stem ++ strL ".py"
  let htmlFile := dir ++ strL "/" ++ stem ++ strL ".html"
  let r := w.convertRes ipynb
  if r.returncode ≠ 0 then
    .error ⟨strL "marimo convert failed for " ++ pathBaseName ipynb, r.stdout, r.stderr⟩
  else
    let r2 := w.exportRes pyFile
    if r2.returncode ≠ 0 then
      .error ⟨strL "marimo export failed for " ++ pathBaseName ipynb, r2.stdout, r2.stderr⟩
    else .ok htmlFile

/-- `_convert_notebook_standalone` (lines 19-49): catch the worker-local error
and turn it into a `(source_file, None)` result. -/
def convertNotebookStandalone (w : ExtWorld) (dir ipynb : List Char) :
    List Char × Option (List Char) :=
  match convertNotebookImpl w dir ipynb with
  | .ok p => (ipynb, some p)
  | .error _ => (ipynb, none)

/-- The collection loop of `convert_gallery_notebooks` (lines 183-261): every
notebook goes through the standalone worker independently, and only the
successful ones contribute a `stem ↦ artifact path` entry.  (The stored path is
the artifact path; the `relative_to(_static)` trimming is elided.) -/
def convertGalleryNotebooks (w : ExtWorld) (dir : List Char)
    (files : List (List Char)) : List (List Char × List Char) :=
  (files.map (convertNotebookStandalone w dir)).filterMap
    (fun r => r.2.map (fun p => (pathStem r.1, p)))

/-- A small JSON value AST for the manifest document. -/
inductive JVal where
  | jstr (s : List Char)
  | jnum (n : Nat)
  | jobj (fields : List (List Char × JVal))

/-- `_save_gallery_manifest(converted_notebooks)` (lines 263-274): the JSON
document `{"gallery_notebooks": mapping, "total_count": len(mapping)}` that
`json.dump` serializes.  The textual serialization by the external `json`
module is elided; the document is modelled at the JSON-value level. -/
def saveGalleryManifest (m : List (List Char × List Char)) : JVal :=
  .jobj [(strL "gallery_notebooks", .jobj (m.map (fun p => (p.1, JVal.jstr p.2)))),
         (strL "total_count", .jnum m.length)]

/-- Field lookup in a JSON object (reading the written document back). -/
def jGet (v : JVal) (k : List Char) : Option JVal :=
  match v with
  | .jobj fs => fs.lookup k
  | _ => none

/-- `detect_sphinx_gallery` (lines 147-165): false unless
`'sphinx_gallery.gen_gallery'` is among the configured extensions and the
(possibly defaulted-to-empty) `sphinx_gallery_conf` mapping is truthy. -/
def detect_sphinx_gallery (extensions : List (List Char))
    (conf : List (List Char × List (List Char))) : Bool :=
  if strL "sphinx_gallery.gen_gallery" ∈ extensions then
    if conf.isEmpty then false else true
  else false

/-- The state of `GalleryMarimoIntegration` read by the lookup methods:
the `gallery_detected` flag, whether `marimo_gallery_dir` has been set, and the
`sphinx_gallery_conf` mapping (values restricted to the string lists the code
reads, i.e. `gallery_dirs`). -/
structure GalleryState where
  gallery_detected : Bool
  marimoDirSet : Bool
  galleryConf : List (List Char × List (List Char))

/-- `should_inject_launcher(docname)` (lines 276-290). -/
def should_inject_launcher (st : GalleryState) (docname : List Char) : Bool :=
  if st.gallery_detected then
    ((st.galleryConf.lookup (strL "gallery_dirs")).getD []).any
      (fun d => d.isPrefixOf docname)
  else false

/-- One fresh read of the manifest file from disk: the file may be missing, be
unreadable/malformed JSON (the `except` branch of `get_notebook_info`), or hold
the `gallery_notebooks` mapping. -/
inductive ManifestRead where
  | missing
  | malformed
  | ok (gallery_notebooks : List (List Char × List Char))

/-- `get_notebook_info(docname)` (lines 292-317), with the manifest read it
performs on each call passed in as a `ManifestRead` value. -/
def get_notebook_info (st : GalleryState) (fs : ManifestRead)
    (docname : List Char) : Option (List Char × List Char) :=
  if !st.marimoDirSet || !(should_inject_launcher st docname) then none
  else
    match fs with
    | .missing => none
    | .malformed => none
    | .ok m =>
      let nb := pathBaseName docname
      match m.lookup nb with
      | some rel => some (nb, strL "/_static/" ++ rel)
      | none => none

theorem appMarker_length : appMarker.length = 9 := rfl

theorem hasSub_iff {p l : List Char} : hasSub p l = true ↔ p <:+: l := by
  induction l with
  | nil =>
    simp only [hasSub, List.isEmpty_iff]
    constructor
    · rintro rfl; exact List.infix_refl []
    · intro h; exact List.eq_nil_of_infix_nil h
  | cons c rest ih =>
    simp only [hasSub, Bool.or_eq_true, List.isPrefixOf_iff_prefix, ih,
      List.infix_cons_iff]

theorem splitFirst_eq {t : Char} {l a b : List Char}
    (h : splitFirst t l = some (a, b)) : l = a ++ t :: b ∧ t ∉ a := by
  induction l generalizing a b with
  | nil => simp [splitFirst] at h
  | cons c rest ih =>
    by_cases hc : c = t
    · simp only [splitFirst, if_pos hc] at h
      obtain ⟨rfl, rfl⟩ := Prod.mk.injEq .. ▸ Option.some.injEq .. ▸ h
      simp [hc]
    · simp only [splitFirst, if_neg hc] at h
      cases hsf : splitFirst t rest with
      | none => rw [hsf] at h; simp at h
      | some p =>
        rw [hsf] at h
        obtain ⟨a', b'⟩ := p
        simp only [Option.some.injEq, Prod.mk.injEq] at h
        obtain ⟨rfl, rfl⟩ := h
        obtain ⟨hr, hm⟩ := ih hsf
        subst hr
        refine ⟨rfl, ?_⟩
        simp only [List.mem_cons, not_or]
        exact ⟨fun hce => hc hce.symm, hm⟩

theorem splitFirst_append {t : Char} {a b : List Char} (h : t ∉ a) :
    splitFirst t (a ++ t :: b) = some (a, b) := by
  induction a with
  | nil => simp [splitFirst]
  | cons c a' ih =>
    have hc : c ≠ t := by intro hc; exact h (hc ▸ List.mem_cons_self c a')
    have ha : t ∉ a' := fun hm => h (List.mem_cons_of_mem c hm)
    simp [splitFirst, hc, ih ha]

theorem matchMarker_eq_append {l d a : List Char}
    (h : matchMarker l = some (d, a)) : l = d ++ a ∧ appMarker <+: d := by
  unfold matchMarker at h
  split at h
  case isFalse => simp at h
  case isTrue hp =>
    have hpre : appMarker <+: l := List.isPrefixOf_iff_prefix.mp hp
    obtain ⟨t, ht⟩ := hpre
    have hdrop : l.drop 9 = t := by
      rw [← ht]; exact List.drop_left' appMarker_length
    rw [hdrop] at h
    cases t with
    | nil =>
      simp only [Option.some.injEq, Prod.mk.injEq] at h
      obtain ⟨rfl, rfl⟩ := h
      exact ⟨by simpa using ht.symm, List.prefix_refl _⟩
    | cons c r =>
      dsimp only at h
      by_cases hc : c = '('
      · rw [if_pos hc] at h
        cases hsf : splitFirst ')' r with
        | some p =>
          obtain ⟨inside, after⟩ := p
          rw [hsf] at h
          simp only [Option.some.injEq, Prod.mk.injEq] at h
          obtain ⟨rfl, rfl⟩ := h
          obtain ⟨hr, _⟩ := splitFirst_eq hsf
          subst hr hc
          constructor
          · rw [← ht]; simp
          · exact ⟨'(' :: (inside ++ [')']), rfl⟩
        | none =>
          rw [hsf] at h
          simp only [Option.some.injEq, Prod.mk.injEq] at h
          obtain ⟨rfl, rfl⟩ := h
          exact ⟨ht.symm, List.prefix_refl _⟩
      · rw [if_neg hc] at h
        simp only [Option.some.injEq, Prod.mk.injEq] at h
        obtain ⟨rfl, rfl⟩ := h
        exact ⟨ht.symm, List.prefix_refl _⟩

theorem matchMarker_after_lt {l d a : List Char}
    (h : matchMarker l = some (d, a)) : a.length < l.length := by
  obtain ⟨hl, hpre⟩ := matchMarker_eq_append h
  have hd : 0 < d.length := by
    have := hpre.length_le
    rw [appMarker_length] at this
    omega
  rw [hl, List.length_append]
  omega

theorem matchMarker_isSome_of {l : List Char} (hpre : appMarker <+: l) :
    (matchMarker l).isSome = true := by
  unfold matchMarker
  rw [if_pos (List.isPrefixOf_iff_prefix.mpr hpre)]
  rcases hd : l.drop 9 with _ | ⟨c, r⟩
  · simp
  · dsimp only
    by_cases hc : c = '('
    · rw [if_pos hc]
      rcases hsf : splitFirst ')' r with _ | ⟨i, a⟩ <;> simp
    · rw [if_neg hc]
      simp

theorem matchMarker_none_iff {l : List Char} :
    matchMarker l = none ↔ ¬ (appMarker <+: l) := by
  constructor
  · intro h hpre
    have := matchMarker_isSome_of hpre
    rw [h] at this
    simp at this
  · intro hpre
    unfold matchMarker
    rw [if_neg (fun hb => hpre (List.isPrefixOf_iff_prefix.mp hb))]

theorem pySplitF_congr : ∀ (f g : Nat) (l : List Char),
    l.length ≤ f → l.length ≤ g → pySplitF f l = pySplitF g l := by
  intro f
  induction f with
  | zero =>
    intro g l hf _
    have hl : l = [] := List.length_eq_zero.mp (Nat.le_zero.mp hf)
    subst hl
    cases g <;> rfl
  | succ f ih =>
    intro g l hf hg
    cases l with
    | nil => cases g <;> rfl
    | cons c rest =>
      cases g with
      | zero => simp at hg
      | succ g' =>
        simp only [pySplitF]
        cases hm : matchMarker (c :: rest) with
        | some p =>
          obtain ⟨d, after⟩ := p
          have hlt := matchMarker_after_lt hm
          simp only [List.length_cons] at hf hg hlt
          dsimp only
          rw [ih g' after (by omega) (by omega)]
        | none =>
          simp only [List.length_cons] at hf hg
          dsimp only
          rw [ih g' rest (by omega) (by omega)]

theorem pySplit_nil : pySplit [] = ([], []) := rfl

theorem pySplit_cons_match {c : Char} {rest d after : List Char}
    (hm : matchMarker (c :: rest) = some (d, after)) :
    pySplit (c :: rest) = ([], (d, (pySplit after).1) :: (pySplit after).2) := by
  show pySplitF (c :: rest).length (c :: rest) = _
  have hlt := matchMarker_after_lt hm
  simp only [List.length_cons] at hlt
  simp only [List.length_cons, pySplitF, hm]
  rw [pySplitF_congr rest.length after.length after (by omega) le_rfl]
  rfl

theorem pySplit_cons_none {c : Char} {rest : List Char}
    (hm : matchMarker (c :: rest) = none) :
    pySplit (c :: rest) = (c :: (pySplit rest).1, (pySplit rest).2) := by
  show pySplitF (c :: rest).length (c :: rest) = _
  simp only [List.length_cons, pySplitF, hm]
  rfl

theorem pySplit_reassemble_bounded : ∀ (n : Nat) (l : List Char), l.length ≤ n →
    l = (pySplit l).1 ++ flattenPairs (pySplit l).2 := by
  intro n
  induction n with
  | zero =>
    intro l hl
    have : l = [] := List.length_eq_zero.mp (Nat.le_zero.mp hl)
    subst this
    rfl
  | succ n ih =>
    intro l hl
    cases l with
    | nil => rfl
    | cons c rest =>
      cases hm : matchMarker (c :: rest) with
      | some p =>
        obtain ⟨d, after⟩ := p
        rw [pySplit_cons_match hm]
        have hlt := matchMarker_after_lt hm
        simp only [List.length_cons] at hl hlt
        have hrec := ih after (by omega)
        obtain ⟨heq, _⟩ := matchMarker_eq_append hm
        simp only [flattenPairs, List.map_cons, List.flatten_cons, List.nil_append]
        rw [heq]
        conv_lhs => rw [hrec]
        simp [flattenPairs, List.append_assoc]
      | none =>
        rw [pySplit_cons_none hm]
        simp only [List.length_cons] at hl
        have hrec := ih rest (by omega)
        simp only [List.cons_append]
        exact congrArg (c :: ·) hrec

theorem pySplit_reassemble (l : List Char) :
    l = (pySplit l).1 ++ flattenPairs (pySplit l).2 :=
  pySplit_reassemble_bounded l.length l le_rfl

theorem pySplit_pre_nomarker_bounded : ∀ (n : Nat) (l : List Char), l.length ≤ n →
    ¬ appMarker <:+: (pySplit l).1 := by
  intro n
  induction n with
  | zero =>
    intro l hl
    have : l = [] := List.length_eq_zero.mp (Nat.le_zero.mp hl)
    subst this
    intro h
    have := List.eq_nil_of_infix_nil h
    simp [appMarker, strL] at this
  | succ n ih =>
    intro l hl
    cases l with
    | nil =>
      intro h
      have := List.eq_nil_of_infix_nil h
      simp [appMarker, strL] at this
    | cons c rest =>
      cases hm : matchMarker (c :: rest) with
      | some p =>
        obtain ⟨d, after⟩ := p
        rw [pySplit_cons_match hm]
        intro h
        have := List.eq_nil_of_infix_nil h
        simp [appMarker, strL] at this
      | none =>
        rw [pySplit_cons_none hm]
        simp only [List.length_cons] at hl
        intro h
        rw [List.infix_cons_iff] at h
        rcases h with hpre | hinf
        · have hrest : (pySplit rest).1 <+: rest := by
            conv_rhs => rw [pySplit_reassemble rest]
            exact List.prefix_append _ _
          have : appMarker <+: c :: rest :=
            hpre.trans (List.cons_prefix_cons.mpr ⟨rfl, hrest⟩)
          exact (matchMarker_none_iff.mp hm) this
        · exact ih rest (by omega) hinf

theorem pySplit_pre_nomarker (l : List Char) : ¬ appMarker <:+: (pySplit l).1 :=
  pySplit_pre_nomarker_bounded l.length l le_rfl

theorem pySplit_flatten_self_bounded : ∀ (n : Nat) (l : List Char), l.length ≤ n →
    pySplit (flattenPairs (pySplit l).2) = ([], (pySplit l).2) := by
  intro n
  induction n with
  | zero =>
    intro l hl
    have : l = [] := List.length_eq_zero.mp (Nat.le_zero.mp hl)
    subst this
    rfl
  | succ n ih =>
    intro l hl
    cases l with
    | nil => rfl
    | cons c rest =>
      cases hm : matchMarker (c :: rest) with
      | some p =>
        obtain ⟨d, after⟩ := p
        have hsplit := pySplit_cons_match hm
        have hfl : flattenPairs (pySplit (c :: rest)).2 = c :: rest := by
          conv_rhs => rw [pySplit_reassemble (c :: rest)]
          rw [hsplit]
          simp
        rw [hfl, hsplit]
      | none =>
        rw [pySplit_cons_none hm]
        simp only [List.length_cons] at hl
        exact ih rest (by omega)

theorem pySplit_flatten_self (l : List Char) :
    pySplit (flattenPairs (pySplit l).2) = ([], (pySplit l).2) :=
  pySplit_flatten_self_bounded l.length l le_rfl

theorem pySplit_pairs_marker_bounded : ∀ (n : Nat) (l : List Char), l.length ≤ n →
    ∀ p ∈ (pySplit l).2, appMarker <+: p.1 := by
  intro n
  induction n with
  | zero =>
    intro l hl
    have : l = [] := List.length_eq_zero.mp (Nat.le_zero.mp hl)
    subst this
    simp [pySplit_nil]
  | succ n ih =>
    intro l hl
    cases l with
    | nil => simp [pySplit_nil]
    | cons c rest =>
      cases hm : matchMarker (c :: rest) with
      | some p =>
        obtain ⟨d, after⟩ := p
        rw [pySplit_cons_match hm]
        have hlt := matchMarker_after_lt hm
        simp only [List.length_cons] at hl hlt
        intro q hq
        rcases List.mem_cons.mp hq with rfl | hq'
        · exact (matchMarker_eq_append hm).2
        · exact ih after (by omega) q hq'
      | none =>
        rw [pySplit_cons_none hm]
        simp only [List.length_cons] at hl
        exact ih rest (by omega)

theorem pySplit_pairs_marker (l : List Char) :
    ∀ p ∈ (pySplit l).2, appMarker <+: p.1 :=
  pySplit_pairs_marker_bounded l.length l le_rfl

theorem pySplit_no_marker_bounded : ∀ (n : Nat) (l : List Char), l.length ≤ n →
    ¬ appMarker <:+: l → pySplit l = (l, []) := by
  intro n
  induction n with
  | zero =>
    intro l hl _
    have : l = [] := List.length_eq_zero.mp (Nat.le_zero.mp hl)
    subst this
    rfl
  | succ n ih =>
    intro l hl hno
    cases l with
    | nil => rfl
    | cons c rest =>
      have hm : matchMarker (c :: rest) = none :=
        matchMarker_none_iff.mpr (fun hpre => hno hpre.isInfix)
      rw [pySplit_cons_none hm]
      simp only [List.length_cons] at hl
      rw [ih rest (by omega) (fun hi => hno (List.infix_cons hi))]

theorem pySplit_no_marker {l : List Char} (hno : ¬ appMarker <:+: l) :
    pySplit l = (l, []) :=
  pySplit_no_marker_bounded l.length l le_rfl hno

theorem appMarker_no_selfoverlap :
    ∀ k, k < 9 → 0 < k → appMarker.drop k ≠ appMarker.take (9 - k) := by
  decide

theorem pySplit_append {t f : List Char} (h1 : ¬ appMarker <:+: t)
    (hf : f = [] ∨ appMarker <+: f) :
    pySplit (t ++ f) = (t ++ (pySplit f).1, (pySplit f).2) := by
  induction t with
  | nil => simp
  | cons c t' ih =>
    have h1' : ¬ appMarker <:+: t' := fun hi => h1 (List.infix_cons hi)
    have hnm : matchMarker (c :: (t' ++ f)) = none := by
      rw [matchMarker_none_iff]
      intro hpre
      rcases hf with rfl | hfm
      · rw [List.append_nil] at hpre
        exact h1 hpre.isInfix
      · by_cases hlen : 9 ≤ (c :: t').length
        · have hfx : appMarker <+: c :: t' := by
            refine List.prefix_of_prefix_length_le hpre ?_ ?_
            · exact (List.prefix_append (c :: t') f)
            · rw [appMarker_length]; exact hlen
          exact h1 hfx.isInfix
        · have hklt : (c :: t').length < 9 := by omega
          have hct : (c :: t') <+: appMarker := by
            refine List.prefix_of_prefix_length_le (List.prefix_append (c :: t') f) hpre ?_
            rw [appMarker_length]; omega
          have htake : c :: t' = appMarker.take (c :: t').length :=
            List.prefix_iff_eq_take.mp hct
          have hsplitm : appMarker = (c :: t') ++ appMarker.drop (c :: t').length := by
            conv_lhs => rw [← List.take_append_drop (c :: t').length appMarker]
            rw [← htake]
          have hdropf : appMarker.drop (c :: t').length <+: f := by
            have h0 := hpre
            rw [hsplitm, List.cons_append] at h0
            exact (List.prefix_append_right_inj t').mp (List.cons_prefix_cons.mp h0).2
          have hdA : appMarker.drop (c :: t').length <+: appMarker := by
            refine List.prefix_of_prefix_length_le hdropf hfm ?_
            rw [List.length_drop, appMarker_length]
            omega
          have hcontra : appMarker.drop (c :: t').length =
              appMarker.take (9 - (c :: t').length) := by
            have := List.prefix_iff_eq_take.mp hdA
            rwa [List.length_drop, appMarker_length] at this
          exact appMarker_no_selfoverlap (c :: t').length hklt (by simp) hcontra
    rw [List.cons_append, pySplit_cons_none hnm, ih h1']
    rfl

theorem prefix_drop_head_not_mem {p b' : List Char} {x : Char} (hx : x ∉ p) :
    ∀ k, k < p.length → ¬ (p.drop k <+: x :: b') := by
  intro k hk hpre
  rw [List.drop_eq_getElem_cons hk] at hpre
  have := (List.cons_prefix_cons.mp hpre).1
  exact hx (this ▸ List.getElem_mem hk)

theorem not_infix_append {p b : List Char} (hb : ¬ p <:+: b) :
    ∀ (a : List Char), ¬ p <:+: a →
    (∀ k, 0 < k → k < p.length → ¬ (p.take k <:+ a ∧ p.drop k <+: b)) →
    ¬ p <:+: a ++ b := by
  intro a
  induction a with
  | nil =>
    intro _ _
    simpa using hb
  | cons c a' ih =>
    intro ha hspan hi
    rw [List.cons_append, List.infix_cons_iff] at hi
    rcases hi with hpre | hi
    · by_cases hlen : p.length ≤ (c :: a').length
      · have hpa : p <+: c :: a' :=
          List.prefix_of_prefix_length_le hpre (List.prefix_append (c :: a') b) hlen
        exact ha hpa.isInfix
      · push_neg at hlen
        have hct : (c :: a') <+: p :=
          List.prefix_of_prefix_length_le (List.prefix_append (c :: a') b) hpre (by omega)
        have htake : c :: a' = p.take (c :: a').length :=
          List.prefix_iff_eq_take.mp hct
        have hp : p = (c :: a') ++ p.drop (c :: a').length := by
          conv_lhs => rw [← List.take_append_drop (c :: a').length p]
          rw [← htake]
        have hdropb : p.drop (c :: a').length <+: b := by
          have h0 := hpre
          rw [hp, List.cons_append] at h0
          exact (List.prefix_append_right_inj a').mp (List.cons_prefix_cons.mp h0).2
        refine hspan (c :: a').length (by simp) (by omega) ⟨?_, hdropb⟩
        rw [← htake]
    · refine ih (fun h => ha (List.infix_cons h)) ?_ hi
      intro k hk0 hk1 hkk
      exact hspan k hk0 hk1 ⟨hkk.1.trans (List.suffix_cons c a'), hkk.2⟩

theorem not_infix_concat3 {p t1 md t2 : List Char}
    (hnl : ∀ c ∈ p, c ≠ '\n')
    (h1 : ¬ p <:+: t1) (hmd : ¬ p <:+: md) (h2 : ¬ p <:+: t2)
    (ht2 : ∃ b', t2 = '\n' :: b')
    (hsp1 : ∀ k, k < p.length → 0 < k → ¬ p.take k <:+ t1) :
    ¬ p <:+: t1 ++ (md ++ t2) := by
  obtain ⟨b', rfl⟩ := ht2
  have hmidt : ¬ p <:+: md ++ '\n' :: b' := by
    refine not_infix_append h2 md hmd ?_
    intro k _ hk1 hkk
    have hx : ('\n') ∉ p := fun hm => hnl '\n' hm rfl
    exact prefix_drop_head_not_mem hx k hk1 hkk.2
  refine not_infix_append hmidt t1 h1 ?_
  intro k hk0 hk1 hkk
  exact hsp1 k hk1 hk0 hkk.1

theorem intercalate_cons_cons_char {s a b : List Char} {r : List (List Char)} :
    List.intercalate s (a :: b :: r) = a ++ s ++ List.intercalate s (b :: r) := by
  simp [List.intercalate, List.intersperse_cons_cons, List.append_assoc]

theorem intercalate_singleton_char {s a : List Char} :
    List.intercalate s [a] = a := by
  simp [List.intercalate]

theorem intercalate_append_char {s : List Char} {A B : List (List Char)}
    (hA : A ≠ []) (hB : B ≠ []) :
    List.intercalate s (A ++ B) =
      List.intercalate s A ++ s ++ List.intercalate s B := by
  induction A with
  | nil => exact absurd rfl hA
  | cons a A' ih =>
    cases A' with
    | nil =>
      cases B with
      | nil => exact absurd rfl hB
      | cons b B' =>
        show List.intercalate s (a :: b :: B') = _
        rw [intercalate_cons_cons_char, intercalate_singleton_char]
    | cons a2 A'' =>
      show List.intercalate s (a :: (a2 :: (A'' ++ B))) = _
      rw [intercalate_cons_cons_char]
      rw [show (a2 : List Char) :: (A'' ++ B) = (a2 :: A'') ++ B from rfl]
      rw [ih (by simp), intercalate_cons_cons_char]
      simp [List.append_assoc]

theorem infix_intercalate_of_mem (s : List Char) {x : List Char}
    {L : List (List Char)} (hx : x ∈ L) : x <:+: List.intercalate s L := by
  induction L with
  | nil => simp at hx
  | cons a L' ih =>
    rcases List.mem_cons.mp hx with rfl | hx'
    · cases L' with
      | nil =>
        rw [intercalate_singleton_char]
      | cons b r =>
        rw [intercalate_cons_cons_char, List.append_assoc]
        exact (List.prefix_append x _).isInfix
    · cases L' with
      | nil => simp at hx'
      | cons b r =>
        rw [intercalate_cons_cons_char]
        have h1 : List.intercalate s (b :: r) <:+: a ++ s ++ List.intercalate s (b :: r) :=
          ⟨a ++ s, [], by simp⟩
        exact (ih hx').trans h1

theorem takeWhile_eq_of_dropWhile_nil {α : Type} {p : α → Bool} {l : List α}
    (h : l.dropWhile p = []) : l.takeWhile p = l := by
  have hx := List.takeWhile_append_dropWhile p l
  rwa [h, List.append_nil] at hx

theorem splitOn_ne_nil_char {c : Char} {l : List Char} : l.splitOn c ≠ [] := by
  unfold List.splitOn
  exact List.splitOnP_ne_nil _ _

theorem procPairs_cons_cons {d c : List Char} {q : List Char × List Char}
    {rest : List (List Char × List Char)} :
    procPairs ((d, c) :: q :: rest) =
      ((d ++ c) :: (procPairs (q :: rest)).1, (procPairs (q :: rest)).2) := rfl

theorem procPairs_append {ps qs : List (List Char × List Char)} (hq : qs ≠ []) :
    procPairs (ps ++ qs) =
      ((ps.map (fun p => p.1 ++ p.2)) ++ (procPairs qs).1, (procPairs qs).2) := by
  induction ps with
  | nil => simp
  | cons x ps' ih =>
    obtain ⟨d, c⟩ := x
    cases hq2 : ps' ++ qs with
    | nil => exact absurd (List.append_eq_nil.mp hq2).2 hq
    | cons y ys =>
      rw [List.cons_append, hq2, procPairs_cons_cons, ← hq2, ih]
      simp

theorem procPairs_lastNoGuard {ps : List (List Char × List Char)}
    (h : lastNoGuard ps = true) :
    procPairs ps = (ps.map (fun p => p.1 ++ p.2), []) := by
  induction ps with
  | nil => rfl
  | cons x ps' ih =>
    obtain ⟨d, c⟩ := x
    cases ps' with
    | nil =>
      simp only [lastNoGuard, List.getLast?_singleton] at h
      show procLast d c = _
      unfold procLast
      by_cases hg : hasSub guardMarker c
      · rw [if_pos hg]
        have hdw : (c.splitOn '\n').dropWhile (fun l => !(isGuardLine l)) = [] :=
          List.isEmpty_iff.mp h
        have htw : (c.splitOn '\n').takeWhile (fun l => !(isGuardLine l)) = c.splitOn '\n' :=
          takeWhile_eq_of_dropWhile_nil hdw
        dsimp only
        rw [htw, hdw]
        rw [if_neg (by simpa [List.isEmpty_iff] using splitOn_ne_nil_char)]
        rw [List.intercalate_splitOn]
        simp [List.intercalate]
      · rw [if_neg hg]
        rfl
    | cons q rest' =>
      rw [procPairs_cons_cons]
      have h' : lastNoGuard (q :: rest') = true := by
        have hx : lastNoGuard ((d, c) :: q :: rest') = lastNoGuard (q :: rest') := by
          unfold lastNoGuard
          rw [List.getLast?_cons_cons]
        rwa [hx] at h
      rw [ih h']
      simp

theorem lookup_map_jstr (m : List (List Char × List Char)) (k : List Char) :
    (m.map (fun p => (p.1, JVal.jstr p.2))).lookup k = (m.lookup k).map JVal.jstr := by
  induction m with
  | nil => rfl
  | cons p m' ih =>
    obtain ⟨a, b⟩ := p
    cases hab : (k == a) <;> simp [List.lookup_cons, hab, ih]

theorem jGet_save_total (m : List (List Char × List Char)) :
    jGet (saveGalleryManifest m) (strL "total_count") = some (JVal.jnum m.length) := by
  have h1 : ((strL "total_count" : List Char) == strL "gallery_notebooks") = false := by decide
  have h2 : ((strL "total_count" : List Char) == strL "total_count") = true := by decide
  simp [jGet, saveGalleryManifest, List.lookup_cons, h1, h2]

theorem jGet_save_notebooks (m : List (List Char × List Char)) :
    jGet (saveGalleryManifest m) (strL "gallery_notebooks") =
      some (JVal.jobj (m.map (fun p => (p.1, JVal.jstr p.2)))) := by
  have h3 : ((strL "gallery_notebooks" : List Char) == strL "gallery_notebooks") = true := by
    decide
  simp [jGet, saveGalleryManifest, List.lookup_cons, h3]

/-- C5: `_save_gallery_manifest` serializes exactly
`{"gallery_notebooks": mapping, "total_count": K}` for a mapping of `K`
entries, and reading the written document back yields a `total_count` equal to
`K` and per-entry values that match the input mapping exactly. -/
theorem gallery_manifest_roundtrip (m : List (List Char × List Char)) :
    jGet (saveGalleryManifest m) (strL "total_count") = some (JVal.jnum m.length)
    ∧ jGet (saveGalleryManifest m) (strL "gallery_notebooks") =
        some (JVal.jobj (m.map (fun p => (p.1, JVal.jstr p.2))))
    ∧ ∀ k : List Char,
        (m.map (fun p => (p.1, JVal.jstr p.2))).lookup k = (m.lookup k).map JVal.jstr :=
  ⟨jGet_save_total m, jGet_save_notebooks m, fun k => lookup_map_jstr m k⟩

/-- C7: gallery detection returns true iff the gallery-generation extension is
among the configured extensions and the gallery configuration object is
non-empty. -/
theorem detect_sphinx_gallery_iff (extensions : List (List Char))
    (conf : List (List Char × List (List Char))) :
    detect_sphinx_gallery extensions conf = true ↔
      (strL "sphinx_gallery.gen_gallery" ∈ extensions ∧ conf ≠ []) := by
  by_cases h1 : strL "sphinx_gallery.gen_gallery" ∈ extensions
  · by_cases h2 : conf = []
    · subst h2
      simp [detect_sphinx_gallery, h1]
    · simp [detect_sphinx_gallery, h1, h2, List.isEmpty_iff]
  · simp [detect_sphinx_gallery, h1]

/-- C6: `should_inject_launcher` returns true iff gallery detection succeeded
and the document name starts with one of the configured gallery output
directories; concretely, with `gallery_dirs=["auto_examples"]` it accepts
`auto_examples/plot_foo` and `auto_examples/sub/plot_bar` and rejects `index`. -/
theorem should_inject_launcher_iff :
    (∀ (st : GalleryState) (doc : List Char),
      should_inject_launcher st doc = true ↔
        (st.gallery_detected = true ∧
          ∃ d ∈ (st.galleryConf.lookup (strL "gallery_dirs")).getD [], d <+: doc))
    ∧ should_inject_launcher
        ⟨true, true, [(strL "gallery_dirs", [strL "auto_examples"])]⟩
        (strL "auto_examples/plot_foo") = true
    ∧ should_inject_launcher
        ⟨true, true, [(strL "gallery_dirs", [strL "auto_examples"])]⟩
        (strL "auto_examples/sub/plot_bar") = true
    ∧ should_inject_launcher
        ⟨true, true, [(strL "gallery_dirs", [strL "auto_examples"])]⟩
        (strL "index") = false := by
  refine ⟨?_, by decide, by decide, by decide⟩
  intro st doc
  by_cases hd : st.gallery_detected
  · simp [should_inject_launcher, hd, List.any_eq_true, List.isPrefixOf_iff_prefix]
  · simp [should_inject_launcher, hd]

theorem standalone_eq (w : ExtWorld) (dir f : List Char) :
    convertNotebookStandalone w dir f = (f, (convertNotebookImpl w dir f).toOption) := by
  unfold convertNotebookStandalone
  cases convertNotebookImpl w dir f <;> rfl

theorem length_filterMap_optmap {α β γ : Type} (opt : α → Option β) (j : α → β → γ)
    (l : List α) :
    (l.filterMap (fun f => (opt f).map (j f))).length =
      (l.filter (fun f => (opt f).isSome)).length := by
  induction l with
  | nil => rfl
  | cons a l' ih =>
    cases h : opt a <;> simp [List.filterMap_cons, h, List.filter_cons, ih]

theorem convertGallery_length (w : ExtWorld) (dir : List Char)
    (files : List (List Char)) :
    (convertGalleryNotebooks w dir files).length =
      (files.filter (fun f => (convertNotebookImpl w dir f).toOption.isSome)).length := by
  unfold convertGalleryNotebooks
  have hfun : convertNotebookStandalone w dir =
      fun f => (f, (convertNotebookImpl w dir f).toOption) :=
    funext (standalone_eq w dir)
  rw [hfun, List.filterMap_map]
  have hcomp : ((fun r : List Char × Option (List Char) =>
        r.2.map (fun p => (pathStem r.1, p))) ∘
        (fun f => (f, (convertNotebookImpl w dir f).toOption))) =
      fun f => ((convertNotebookImpl w dir f).toOption).map
        (fun p => (pathStem f, p)) := rfl
  rw [hcomp]
  exact length_filterMap_optmap _ _ _

theorem length_filter_add_length_filter_not {α : Type} (p : α → Bool) (l : List α) :
    (l.filter p).length + (l.filter (fun a => !(p a))).length = l.length := by
  induction l with
  | nil => rfl
  | cons a l' ih => cases h : p a <;> simp [List.filter_cons, h, ← ih] <;> omega

/-- C4: a non-zero exit status from an external convert command fails only that
notebook: `_convert_notebook_impl` raises a worker-local error carrying the
captured stdout/stderr it logs, `_convert_notebook_standalone` converts any
such error into a `(source_file, none)` pair, batch conversion treats every
notebook independently, the manifest records exactly the successes, and one
failing notebook among five still yields four entries in the final manifest. -/
theorem convert_batch_isolated_failures
    (w : ExtWorld) (dir : List Char) (files : List (List Char)) :
    (∀ f, (w.convertRes f).returncode ≠ 0 →
        convertNotebookImpl w dir f =
          .error ⟨strL "marimo convert failed for " ++ pathBaseName f,
                  (w.convertRes f).stdout, (w.convertRes f).stderr⟩)
    ∧ (∀ f e, convertNotebookImpl w dir f = .error e →
        convertNotebookStandalone w dir f = (f, none))
    ∧ files.map (convertNotebookStandalone w dir) =
        files.map (fun f => (f, (convertNotebookImpl w dir f).toOption))
    ∧ jGet (saveGalleryManifest (convertGalleryNotebooks w dir files))
        (strL "total_count") =
        some (JVal.jnum ((files.filter
          (fun f => (convertNotebookImpl w dir f).toOption.isSome)).length))
    ∧ (files.length = 5 →
        (files.filter
          (fun f => !((convertNotebookImpl w dir f).toOption.isSome))).length = 1 →
        (convertGalleryNotebooks w dir files).length = 4) := by
  refine ⟨?_, ?_, ?_, ?_, ?_⟩
  · intro f hf
    unfold convertNotebookImpl
    rw [if_pos hf]
  · intro f e he
    unfold convertNotebookStandalone
    rw [he]
  · exact congrArg (fun g => List.map g files) (funext (standalone_eq w dir))
  · rw [jGet_save_total, convertGallery_length]
  · intro h5 h1
    rw [convertGallery_length]
    have hsum := length_filter_add_length_filter_not
      (fun f => (convertNotebookImpl w dir f).toOption.isSome) files
    omega

/-- C8: `get_notebook_info` returns a record only if the launcher check holds
for the document and the document's base filename is a key of the persisted
manifest (the record then being that name and its `/_static/` url); a missing
or unreadable/malformed manifest makes it return none rather than raise.  The
fresh per-call read of the manifest file is the `ManifestRead` argument. -/
theorem get_notebook_info_only_if :
    (∀ (st : GalleryState) (fs : ManifestRead) (doc : List Char)
        (info : List Char × List Char),
      get_notebook_info st fs doc = some info →
        st.marimoDirSet = true ∧ should_inject_launcher st doc = true ∧
        ∃ m rel, fs = ManifestRead.ok m ∧ m.lookup (pathBaseName doc) = some rel ∧
          info = (pathBaseName doc, strL "/_static/" ++ rel))
    ∧ (∀ st doc, get_notebook_info st ManifestRead.missing doc = none)
    ∧ (∀ st doc, get_notebook_info st ManifestRead.malformed doc = none) := by
  refine ⟨?_, ?_, ?_⟩
  · intro st fs doc info h
    unfold get_notebook_info at h
    by_cases h1 : (!st.marimoDirSet || !(should_inject_launcher st doc)) = true
    · rw [if_pos h1] at h
      simp at h
    · rw [if_neg h1] at h
      simp only [Bool.or_eq_true, Bool.not_eq_true'] at h1
      push_neg at h1
      refine ⟨Bool.ne_false_iff.mp h1.1, Bool.ne_false_iff.mp h1.2, ?_⟩
      cases fs with
      | missing => simp at h
      | malformed => simp at h
      | ok m =>
        dsimp only at h
        cases hl : m.lookup (pathBaseName doc) with
        | none => rw [hl] at h; simp at h
        | some rel =>
          rw [hl] at h
          simp only [Option.some.injEq] at h
          exact ⟨m, rel, rfl, hl, h.symm⟩
  · intro st doc
    unfold get_notebook_info
    split <;> rfl
  · intro st doc
    unfold get_notebook_info
    split <;> rfl

/-- C9: `move_imports_to_top` keeps the preamble and postamble, and emits the
cells containing the `import marimo` marker (in their original relative order,
being a filter of the parsed cell list, hence a sublist) followed by the
remaining cells (also in their original relative order). -/
theorem moveImports_partition_order (x : List Char) :
    move_imports_to_top x =
      (parseNotebook x).1 ++
        ((parseNotebook x).2.1.filter containsImportMarimo ++
          (parseNotebook x).2.1.filter (fun c => !(containsImportMarimo c))).flatten ++
        (parseNotebook x).2.2
    ∧ ((parseNotebook x).2.1.filter containsImportMarimo).Sublist (parseNotebook x).2.1
    ∧ ((parseNotebook x).2.1.filter
        (fun c => !(containsImportMarimo c))).Sublist (parseNotebook x).2.1 := by
  refine ⟨?_, List.filter_sublist _, List.filter_sublist _⟩
  unfold move_imports_to_top
  dsimp only
  rw [List.partition_eq_filter_filter]
  rfl

theorem pySplit_pre_nil_of_marker {l : List Char} (h : appMarker <+: l) :
    (pySplit l).1 = [] := by
  cases l with
  | nil =>
    have := List.prefix_nil.mp h
    simp [appMarker, strL] at this
  | cons c rest =>
    have hs := matchMarker_isSome_of h
    cases hm : matchMarker (c :: rest) with
    | none => rw [hm] at hs; simp at hs
    | some p =>
      obtain ⟨d, a⟩ := p
      rw [pySplit_cons_match hm]

theorem marker_prefix_createMarkdownCell (md : List Char) :
    appMarker <+: createMarkdownCell md := by
  have h1 : appMarker <+: mdFullPre := by decide
  exact h1.trans (List.prefix_append _ _)

/-- C3: on input containing no recognized cell marker, `_parse_notebook` treats
the whole text as preamble with zero cells and an empty postamble;
`move_imports_to_top` returns the input unchanged; `prepend_markdown` passes
the whole input through unchanged as preamble, followed only by its freshly
created markdown cells (which do not depend on the input); and the content
transformation of `transform_notebook` likewise passes the input through as an
unchanged prefix followed by input-independent text, for every option
combination.  All of these are total functions, so none of them raises. -/
theorem transform_degenerate_no_marker (x md : List Char)
    (pmd : Option (List Char)) (mit : Bool)
    (h : hasSub appMarker x = false) :
    parseNotebook x = (x, [], [])
    ∧ move_imports_to_top x = x
    ∧ prepend_markdown x md = x ++ createMarkdownCell md
    ∧ transform_content x pmd mit = x ++ transform_content [] pmd mit := by
  have hno : ¬ appMarker <:+: x := fun hi => by
    rw [hasSub_iff.mpr hi] at h
    exact Bool.true_eq_false.mp h
  have hps : pySplit x = (x, []) := pySplit_no_marker hno
  have hparse : parseNotebook x = (x, [], []) := by
    unfold parseNotebook
    dsimp only
    rw [hps]
    rfl
  have hmove : move_imports_to_top x = x := by
    unfold move_imports_to_top
    dsimp only
    rw [hparse]
    simp
  have hprep : ∀ md', prepend_markdown x md' = x ++ createMarkdownCell md' := by
    intro md'
    unfold prepend_markdown
    dsimp only
    rw [hparse]
    simp
  have hprep0 : ∀ md', prepend_markdown [] md' = createMarkdownCell md' := by
    intro md'
    unfold prepend_markdown
    simp [parseNotebook, pySplit_nil, procPairs]
  have hkey : ∀ md', move_imports_to_top (x ++ createMarkdownCell md') =
      x ++ move_imports_to_top (createMarkdownCell md') := by
    intro md'
    have hmstart := marker_prefix_createMarkdownCell md'
    have hsp := pySplit_append hno (Or.inr hmstart)
    have hpre0 : (pySplit (createMarkdownCell md')).1 = [] :=
      pySplit_pre_nil_of_marker hmstart
    unfold move_imports_to_top parseNotebook
    dsimp only
    rw [hsp, hpre0, List.append_nil]
    simp [List.append_assoc]
  refine ⟨hparse, hmove, hprep md, ?_⟩
  cases pmd with
  | none =>
    cases mit with
    | false => simp [transform_content]
    | true => simp [transform_content, hmove]; rfl
  | some md' =>
    by_cases hmde : md'.isEmpty
    · cases mit with
      | false => simp [transform_content, hmde]
      | true => simp [transform_content, hmde, hmove]; rfl
    · cases mit with
      | false => simp [transform_content, hmde, hprep md', hprep0 md']
      | true => simp [transform_content, hmde, hprep md', hprep0 md', hkey md']

/-- C1 (amended): `move_imports_to_top` is a byte-identical no-op on every
input that parses without an entry-point-guard split (so that reassembly is
lossless) and whose import-marker cells already form a prefix of the cell
list; and it is idempotent on every input whose image under the function
satisfies those same two conditions. -/
theorem moveImports_noop_idempotent :
    (∀ x : List Char,
      lastNoGuard (pySplit x).2 = true →
      importSorted (parseNotebook x).2.1 = true →
      move_imports_to_top x = x)
    ∧ (∀ x : List Char,
      lastNoGuard (pySplit (move_imports_to_top x)).2 = true →
      importSorted (parseNotebook (move_imports_to_top x)).2.1 = true →
      move_imports_to_top (move_imports_to_top x) = move_imports_to_top x) := by
  have hnoop : ∀ x, lastNoGuard (pySplit x).2 = true →
      importSorted (parseNotebook x).2.1 = true → move_imports_to_top x = x := by
    intro x hg hs
    have hproc := procPairs_lastNoGuard hg
    unfold importSorted at hs
    have hs' : (parseNotebook x).2.1 =
        (parseNotebook x).2.1.filter containsImportMarimo ++
          (parseNotebook x).2.1.filter (fun c => !(containsImportMarimo c)) :=
      beq_iff_eq.mp hs
    unfold move_imports_to_top
    dsimp only
    rw [List.partition_eq_filter_filter]
    have hcomp : List.filter (not ∘ containsImportMarimo) (parseNotebook x).2.1 =
        List.filter (fun c => !(containsImportMarimo c)) (parseNotebook x).2.1 := rfl
    rw [hcomp]
    conv_lhs => rw [← hs']
    have hform : parseNotebook x =
        ((pySplit x).1, (pySplit x).2.map (fun p => p.1 ++ p.2), []) := by
      unfold parseNotebook
      dsimp only
      rw [hproc]
    rw [hform]
    dsimp only
    rw [List.append_nil]
    have hre := pySplit_reassemble x
    unfold flattenPairs at hre
    exact hre.symm
  exact ⟨hnoop, fun x hg hs => hnoop _ hg hs⟩

/-- C1 counterexample: on `"@app.cell\nA\n\nif __name__ x\n"` the import-marker
cells (there are none) trivially form a prefix of the cell list, yet
`move_imports_to_top` is not a no-op (the guard split loses the newline before
the guard line) and is not idempotent (the reassembled guard line is still a
guard line, so a second application loses another newline); and on the
two-cell input `u` below, whose image reassembles losslessly, the guard body
`import marimo` merged into the last cell makes the image's cells unsorted and
a second application reorders them, so idempotence also needs
the import-sorted condition on the image. -/
theorem moveImports_noop_idempotent_cex :
    (importSorted (parseNotebook (strL "@app.cell\nA\n\nif __name__ x\n")).2.1 = true
      ∧ move_imports_to_top (strL "@app.cell\nA\n\nif __name__ x\n") ≠
          strL "@app.cell\nA\n\nif __name__ x\n"
      ∧ move_imports_to_top (move_imports_to_top
          (strL "@app.cell\nA\n\nif __name__ x\n")) ≠
          move_imports_to_top (strL "@app.cell\nA\n\nif __name__ x\n"))
    ∧ (lastNoGuard (pySplit (move_imports_to_top
        (strL "@app.cell\ndef a():\n    x = 1\n@app.cell\ndef b():\n    y = 2\nif __name__ == \"m\":\n    import marimo\n"))).2 = true
      ∧ move_imports_to_top (move_imports_to_top
          (strL "@app.cell\ndef a():\n    x = 1\n@app.cell\ndef b():\n    y = 2\nif __name__ == \"m\":\n    import marimo\n")) ≠
          move_imports_to_top
          (strL "@app.cell\ndef a():\n    x = 1\n@app.cell\ndef b():\n    y = 2\nif __name__ == \"m\":\n    import marimo\n")) := by
  refine ⟨⟨by decide, by decide, by decide⟩, ⟨by decide, by decide⟩⟩

theorem moveImports_noop_idempotent_witness :
    move_imports_to_top
      (strL "@app.cell\ndef a():\n    import marimo as mo\n    return\n@app.cell\ndef b():\n    pass\n") =
      strL "@app.cell\ndef a():\n    import marimo as mo\n    return\n@app.cell\ndef b():\n    pass\n" :=
  moveImports_noop_idempotent.1 _ (by decide) (by decide)

theorem pyStrip_within (l : List Char) : pyStrip l <:+: l := by
  unfold pyStrip
  have h1 : l.dropWhile isPyWS <:+ l := List.dropWhile_suffix _
  have h2 : (l.dropWhile isPyWS).reverse.dropWhile isPyWS <:+
      (l.dropWhile isPyWS).reverse := List.dropWhile_suffix _
  have h3 : ((l.dropWhile isPyWS).reverse.dropWhile isPyWS).reverse <+:
      l.dropWhile isPyWS := by
    rw [← List.reverse_suffix]
    simpa using h2
  exact h3.isInfix.trans h1.isInfix

theorem dropWhile_cons_prop {α : Type} {p : α → Bool} {l : List α} {x : α}
    {r : List α} (h : l.dropWhile p = x :: r) : p x = false := by
  induction l with
  | nil => simp at h
  | cons a l' ih =>
    rw [List.dropWhile_cons] at h
    by_cases hp : p a
    · rw [if_pos hp] at h
      exact ih h
    · rw [if_neg hp] at h
      have hax : a = x := (List.cons.injEq .. ▸ h).1
      rw [← hax]
      simpa using hp

theorem hasSub_guard_of_dropWhile_ne {c : List Char}
    (h : (c.splitOn '\n').dropWhile (fun l => !(isGuardLine l)) ≠ []) :
    hasSub guardMarker c = true := by
  cases hLc : (c.splitOn '\n').dropWhile (fun l => !(isGuardLine l)) with
  | nil => exact absurd hLc h
  | cons g r =>
    have hgl : isGuardLine g = true := by
      have := dropWhile_cons_prop hLc
      simpa using this
    have hmem : g ∈ c.splitOn '\n' := by
      have hsuf : (c.splitOn '\n').dropWhile (fun l => !(isGuardLine l)) <:+
          c.splitOn '\n' := List.dropWhile_suffix _
      exact hsuf.sublist.mem (hLc ▸ List.mem_cons_self g r)
    have hglc : g <:+: c := by
      have hint := infix_intercalate_of_mem ['\n'] hmem
      rwa [List.intercalate_splitOn] at hint
    have hguard : guardMarker <:+: g :=
      ((List.isPrefixOf_iff_prefix.mp hgl).isInfix.trans (pyStrip_within g))
    exact hasSub_iff.mpr (hguard.trans hglc)

theorem flattenPairs_append (a b : List (List Char × List Char)) :
    flattenPairs (a ++ b) = flattenPairs a ++ flattenPairs b := by
  simp [flattenPairs]

/-- C10: when the final cell's text contains a guard line preceded by at least
one line of cell content, `_parse_notebook` keeps the preceding lines as the
final cell and moves the lines from the guard on into the postamble, and the
reassembly `preamble + "".join(cells) + postamble` used by `prepend_markdown`
and `move_imports_to_top` reproduces the input minus exactly the one newline
that separated the final cell from the guard line, so re-serialization is not
the identity even though the cell list is unchanged. -/
theorem parse_reassemble_drops_newline
    (x : List Char) (ini : List (List Char × List Char)) (d c : List Char)
    (hsplit : (pySplit x).2 = ini ++ [(d, c)])
    (hactual : (c.splitOn '\n').takeWhile (fun l => !(isGuardLine l)) ≠ [])
    (hposts : (c.splitOn '\n').dropWhile (fun l => !(isGuardLine l)) ≠ []) :
    parseNotebook x =
      ((pySplit x).1,
       ini.map (fun p => p.1 ++ p.2) ++
         [d ++ List.intercalate ['\n']
            ((c.splitOn '\n').takeWhile (fun l => !(isGuardLine l)))],
       List.intercalate ['\n']
         ((c.splitOn '\n').dropWhile (fun l => !(isGuardLine l))))
    ∧ x = (parseNotebook x).1 ++ (parseNotebook x).2.1.flatten ++
        '\n' :: (parseNotebook x).2.2
    ∧ reassembleNb (parseNotebook x) ≠ x := by
  have hinfix : hasSub guardMarker c = true := hasSub_guard_of_dropWhile_ne hposts
  have hlast : procLast d c =
      ([d ++ List.intercalate ['\n']
          ((c.splitOn '\n').takeWhile (fun l => !(isGuardLine l)))],
       List.intercalate ['\n']
         ((c.splitOn '\n').dropWhile (fun l => !(isGuardLine l)))) := by
    unfold procLast
    rw [if_pos hinfix]
    dsimp only
    rw [if_neg (by simpa [List.isEmpty_iff] using hactual)]
  have hproc : procPairs (pySplit x).2 =
      (ini.map (fun p => p.1 ++ p.2) ++
        [d ++ List.intercalate ['\n']
          ((c.splitOn '\n').takeWhile (fun l => !(isGuardLine l)))],
       List.intercalate ['\n']
         ((c.splitOn '\n').dropWhile (fun l => !(isGuardLine l)))) := by
    rw [hsplit, procPairs_append (by simp)]
    rw [show procPairs [(d, c)] = procLast d c from rfl, hlast]
  have hparse : parseNotebook x =
      ((pySplit x).1,
       ini.map (fun p => p.1 ++ p.2) ++
         [d ++ List.intercalate ['\n']
            ((c.splitOn '\n').takeWhile (fun l => !(isGuardLine l)))],
       List.intercalate ['\n']
         ((c.splitOn '\n').dropWhile (fun l => !(isGuardLine l)))) := by
    unfold parseNotebook
    dsimp only
    rw [hproc]
  have hc : c = List.intercalate ['\n']
        ((c.splitOn '\n').takeWhile (fun l => !(isGuardLine l))) ++
      '\n' :: List.intercalate ['\n']
        ((c.splitOn '\n').dropWhile (fun l => !(isGuardLine l))) := by
    conv_lhs => rw [← List.intercalate_splitOn c '\n']
    conv_lhs =>
      rw [← List.takeWhile_append_dropWhile (fun l => !(isGuardLine l))
        (c.splitOn '\n')]
    rw [intercalate_append_char hactual hposts]
    simp
  have hdc : flattenPairs [(d, c)] =
      d ++ (List.intercalate ['\n']
          ((c.splitOn '\n').takeWhile (fun l => !(isGuardLine l))) ++
        '\n' :: List.intercalate ['\n']
          ((c.splitOn '\n').dropWhile (fun l => !(isGuardLine l)))) := by
    show (d ++ c) ++ [] = _
    rw [List.append_nil]
    conv_lhs => rw [hc]
  have hx2 : x = (parseNotebook x).1 ++ (parseNotebook x).2.1.flatten ++
      '\n' :: (parseNotebook x).2.2 := by
    have hre := pySplit_reassemble x
    rw [hsplit, flattenPairs_append, hdc] at hre
    rw [hparse]
    dsimp only
    conv_lhs => rw [hre]
    simp [flattenPairs, List.append_assoc]
  refine ⟨hparse, hx2, ?_⟩
  intro heq
  unfold reassembleNb at heq
  have hlen := congrArg List.length (heq.trans hx2)
  simp [List.length_append] at hlen

theorem parse_reassemble_drops_newline_witness :
    parseNotebook (strL "@app.cell\nA\nif __name__ z\n") =
      ((pySplit (strL "@app.cell\nA\nif __name__ z\n")).1,
       List.map (fun p => p.1 ++ p.2) ([] : List (List Char × List Char)) ++
         [strL "@app.cell" ++ List.intercalate ['\n']
            (((strL "\nA\nif __name__ z\n").splitOn '\n').takeWhile
              (fun l => !(isGuardLine l)))],
       List.intercalate ['\n']
         (((strL "\nA\nif __name__ z\n").splitOn '\n').dropWhile
           (fun l => !(isGuardLine l))))
    ∧ strL "@app.cell\nA\nif __name__ z\n" =
        (parseNotebook (strL "@app.cell\nA\nif __name__ z\n")).1 ++
          (parseNotebook (strL "@app.cell\nA\nif __name__ z\n")).2.1.flatten ++
          '\n' :: (parseNotebook (strL "@app.cell\nA\nif __name__ z\n")).2.2
    ∧ reassembleNb (parseNotebook (strL "@app.cell\nA\nif __name__ z\n")) ≠
        strL "@app.cell\nA\nif __name__ z\n" :=
  parse_reassemble_drops_newline (strL "@app.cell\nA\nif __name__ z\n") []
    (strL "@app.cell") (strL "\nA\nif __name__ z\n") (by decide) (by decide)
    (by decide)

theorem convert_batch_isolated_failures_witness :
    (convertGalleryNotebooks
      ⟨fun f => if f == strL "c.ipynb" then ⟨1, strL "boom", strL "errtext"⟩
                else ⟨0, [], []⟩,
       fun _ => ⟨0, [], []⟩⟩
      (strL "gallery")
      [strL "a.ipynb", strL "b.ipynb", strL "c.ipynb", strL "d.ipynb",
       strL "e.ipynb"]).length = 4 :=
  (convert_batch_isolated_failures _ _ _).2.2.2.2 (by decide) (by decide)

theorem get_notebook_info_only_if_witness :
    (⟨true, true, [(strL "gallery_dirs", [strL "auto_examples"])]⟩ :
        GalleryState).marimoDirSet = true
    ∧ should_inject_launcher
        ⟨true, true, [(strL "gallery_dirs", [strL "auto_examples"])]⟩
        (strL "auto_examples/plot_foo") = true
    ∧ ∃ m rel,
        (ManifestRead.ok [(strL "plot_foo", strL "marimo/gallery/plot_foo.html")]) =
          ManifestRead.ok m
        ∧ m.lookup (pathBaseName (strL "auto_examples/plot_foo")) = some rel
        ∧ ((strL "plot_foo", strL "/_static/marimo/gallery/plot_foo.html") :
            List Char × List Char) =
          (pathBaseName (strL "auto_examples/plot_foo"), strL "/_static/" ++ rel) :=
  get_notebook_info_only_if.1
    ⟨true, true, [(strL "gallery_dirs", [strL "auto_examples"])]⟩
    (ManifestRead.ok [(strL "plot_foo", strL "marimo/gallery/plot_foo.html")])
    (strL "auto_examples/plot_foo")
    (strL "plot_foo", strL "/_static/marimo/gallery/plot_foo.html")
    (by decide)

theorem transform_degenerate_no_marker_witness :
    parseNotebook (strL "print(1)\n") = (strL "print(1)\n", [], [])
    ∧ move_imports_to_top (strL "print(1)\n") = strL "print(1)\n"
    ∧ prepend_markdown (strL "print(1)\n") (strL "Hello") =
        strL "print(1)\n" ++ createMarkdownCell (strL "Hello")
    ∧ transform_content (strL "print(1)\n") (some (strL "Hello")) true =
        strL "print(1)\n" ++ transform_content [] (some (strL "Hello")) true :=
  transform_degenerate_no_marker (strL "print(1)\n") (strL "Hello")
    (some (strL "Hello")) true (by decide)

theorem hasSub_eq_false_iff {p l : List Char} :
    hasSub p l = false ↔ ¬ p <:+: l := by
  constructor
  · intro hf hi
    rw [hasSub_iff.mpr hi] at hf
    exact Bool.true_eq_false.mp hf
  · intro hn
    cases hh : hasSub p l
    · rfl
    · exact absurd (hasSub_iff.mp hh) hn

theorem matchMarker_nonparen (c : Char) (z : List Char) (hc : c ≠ '(') :
    matchMarker (appMarker ++ c :: z) = some (appMarker, c :: z) := by
  unfold matchMarker
  rw [if_pos (List.isPrefixOf_iff_prefix.mpr (List.prefix_append _ _))]
  rw [List.drop_left' appMarker_length]
  dsimp only
  rw [if_neg hc]

theorem matchMarker_paren (inside z : List Char) (hin : (')') ∉ inside) :
    matchMarker (appMarker ++ '(' :: (inside ++ ')' :: z)) =
      some (appMarker ++ '(' :: (inside ++ [')']), z) := by
  unfold matchMarker
  rw [if_pos (List.isPrefixOf_iff_prefix.mpr (List.prefix_append _ _))]
  rw [List.drop_left' appMarker_length]
  dsimp only
  rw [if_pos rfl, splitFirst_append hin]

theorem pySplit_marker_cons {l d a : List Char} (hm : matchMarker l = some (d, a)) :
    pySplit l = ([], (d, (pySplit a).1) :: (pySplit a).2) := by
  cases hl : l with
  | nil =>
    rw [hl, show matchMarker [] = none from rfl] at hm
    exact Option.noConfusion hm
  | cons c rest =>
    rw [hl] at hm
    exact pySplit_cons_match hm

theorem pySplit_pre_nil_cases {flat : List Char}
    (hf : flat = [] ∨ appMarker <+: flat) : (pySplit flat).1 = [] := by
  rcases hf with rfl | h
  · rfl
  · exact pySplit_pre_nil_of_marker h

theorem dropWhile_guard_nil_of_not_sub {c : List Char}
    (h : ¬ guardMarker <:+: c) :
    (c.splitOn '\n').dropWhile (fun l => !(isGuardLine l)) = [] := by
  by_contra hne
  exact h (hasSub_iff.mp (hasSub_guard_of_dropWhile_ne hne))

theorem lastNoGuard_append (a b : List (List Char × List Char))
    (ha : lastNoGuard a = true) (hb : lastNoGuard b = true) :
    lastNoGuard (a ++ b) = true := by
  cases hbe : b with
  | nil => simpa using ha
  | cons q qs =>
    subst hbe
    unfold lastNoGuard at hb ⊢
    rw [List.getLast?_append]
    cases hql : (q :: qs).getLast? with
    | none => simp [List.getLast?_eq_none_iff] at hql
    | some p =>
      rw [hql] at hb
      dsimp only [Option.or] at hb ⊢
      exact hb

theorem flattenPairs_cons (q : List Char × List Char)
    (qs : List (List Char × List Char)) :
    flattenPairs (q :: qs) = (q.1 ++ q.2) ++ flattenPairs qs := by
  simp [flattenPairs]

theorem mdReusePre_decomp :
    mdReusePre = appMarker ++ '(' :: (strL "hide_code=True" ++ ')' :: dispT1) := by
  decide

theorem mdFullPre_decomp :
    mdFullPre = appMarker ++ impBody ++ mdReusePre := by
  decide

theorem m2delim_decomp :
    m2delim = appMarker ++ '(' :: (strL "hide_code=True" ++ [')']) := by
  decide

theorem pySplit_reuseCell (md flat : List Char)
    (hmd : ¬ appMarker <:+: md) (hf : flat = [] ∨ appMarker <+: flat) :
    pySplit (reuseMarkdownCell md ++ flat) =
      ([], (m2delim, dispT1 ++ (md ++ mdTailPost)) :: (pySplit flat).2) := by
  have h1 : reuseMarkdownCell md ++ flat =
      appMarker ++ '(' :: (strL "hide_code=True" ++ ')' ::
        (dispT1 ++ (md ++ (mdTailPost ++ flat)))) := by
    unfold reuseMarkdownCell
    rw [mdReusePre_decomp]
    simp [List.append_assoc]
  have hbody : ¬ appMarker <:+: dispT1 ++ (md ++ mdTailPost) :=
    not_infix_concat3 (by decide) (by decide) hmd (by decide)
      ⟨strL "        \"\"\"\n    )\n    return\n\n\n", by decide⟩ (by decide)
  have hz : pySplit (dispT1 ++ (md ++ (mdTailPost ++ flat))) =
      (dispT1 ++ (md ++ mdTailPost), (pySplit flat).2) := by
    have hx := pySplit_append hbody hf
    rw [pySplit_pre_nil_cases hf, List.append_nil] at hx
    rw [show dispT1 ++ (md ++ (mdTailPost ++ flat)) =
        (dispT1 ++ (md ++ mdTailPost)) ++ flat by simp [List.append_assoc]]
    exact hx
  rw [h1, pySplit_marker_cons (matchMarker_paren _ _ (by decide)), hz]
  rw [← m2delim_decomp]

theorem pySplit_createFull (md flat : List Char)
    (hmd : ¬ appMarker <:+: md) (hf : flat = [] ∨ appMarker <+: flat) :
    pySplit (createMarkdownCell md ++ flat) =
      ([], (appMarker, impBody) ::
        (m2delim, dispT1 ++ (md ++ mdTailPost)) :: (pySplit flat).2) := by
  have h1 : createMarkdownCell md ++ flat =
      appMarker ++ '\n' :: (strL "def __():\n    import marimo as mo\n    return (mo,)\n\n\n" ++
        (reuseMarkdownCell md ++ flat)) := by
    unfold createMarkdownCell reuseMarkdownCell
    rw [mdFullPre_decomp]
    have hib : impBody = '\n' ::
        strL "def __():\n    import marimo as mo\n    return (mo,)\n\n\n" := by decide
    rw [hib]
    simp [List.append_assoc]
  have hmreuse : appMarker <+: reuseMarkdownCell md ++ flat := by
    have : appMarker <+: mdReusePre := by decide
    exact (this.trans (List.prefix_append _ _)).trans
      (by rw [show mdReusePre ++ (md ++ mdTailPost) = reuseMarkdownCell md from rfl]
          exact List.prefix_append _ _)
  have hib : impBody = '\n' ::
      strL "def __():\n    import marimo as mo\n    return (mo,)\n\n\n" := by decide
  have hz : pySplit (impBody ++ (reuseMarkdownCell md ++ flat)) =
      (impBody, (m2delim, dispT1 ++ (md ++ mdTailPost)) :: (pySplit flat).2) := by
    have hx := pySplit_append
      (show ¬ appMarker <:+: impBody by decide) (Or.inr hmreuse)
    rw [pySplit_reuseCell md flat hmd hf] at hx
    rw [hx]
    simp
  rw [h1, pySplit_marker_cons (matchMarker_nonparen _ _ (by decide))]
  rw [show ('\n' :: (strL "def __():\n    import marimo as mo\n    return (mo,)\n\n\n" ++
      (reuseMarkdownCell md ++ flat))) = impBody ++ (reuseMarkdownCell md ++ flat) from by
    rw [hib, List.cons_append]]
  rw [hz]

theorem marker_prefix_reuseCell (md : List Char) :
    appMarker <+: reuseMarkdownCell md := by
  have hmr : appMarker <+: mdReusePre := by decide
  exact (hmr.trans (List.prefix_append _ _)).trans (List.prefix_append _ _)

/-- C2 (amended): for markdown containing neither the cell-marker token nor the
guard token, and input whose parse performs no entry-point-guard split (so
reassembly is lossless), re-parsing the output of `prepend_markdown` yields the
markdown display cell — preceded by a fresh `import marimo as mo` cell exactly
when no existing cell already matches the import pattern — inserted before the
unchanged original cells, hence N+1 or N+2 cells, with the preamble unchanged
and the postamble byte-identical (both empty), and the output text places the
markdown strictly before all original cell content. -/
theorem prepend_markdown_reparse (x md : List Char)
    (h0 : lastNoGuard (pySplit x).2 = true)
    (h1 : hasSub appMarker md = false)
    (h2 : hasSub guardMarker md = false) :
    (parseNotebook x).2.2 = []
    ∧ parseNotebook (prepend_markdown x md) =
        ((parseNotebook x).1,
         (if (parseNotebook x).2.1.any containsMoImport
          then [m2delim ++ (dispT1 ++ (md ++ mdTailPost))]
          else [appMarker ++ impBody,
                m2delim ++ (dispT1 ++ (md ++ mdTailPost))]) ++
           (parseNotebook x).2.1,
         [])
    ∧ (parseNotebook (prepend_markdown x md)).2.1.length =
        (if (parseNotebook x).2.1.any containsMoImport then 1 else 2) +
          (parseNotebook x).2.1.length
    ∧ prepend_markdown x md =
        (parseNotebook x).1 ++
          ((if (parseNotebook x).2.1.any containsMoImport
            then mdReusePre else mdFullPre) ++
            (md ++ (mdTailPost ++ (parseNotebook x).2.1.flatten))) := by
  have hmd_inf : ¬ appMarker <:+: md := hasSub_eq_false_iff.mp h1
  have hmd_guard : ¬ guardMarker <:+: md := hasSub_eq_false_iff.mp h2
  have hproc := procPairs_lastNoGuard h0
  have hparse : parseNotebook x =
      ((pySplit x).1, (pySplit x).2.map (fun p => p.1 ++ p.2), []) := by
    unfold parseNotebook
    dsimp only
    rw [hproc]
  have hf : flattenPairs (pySplit x).2 = [] ∨
      appMarker <+: flattenPairs (pySplit x).2 := by
    cases hp : (pySplit x).2 with
    | nil => left; rfl
    | cons q qs =>
      right
      have hq : appMarker <+: q.1 :=
        pySplit_pairs_marker x q (by rw [hp]; exact List.mem_cons_self q qs)
      rw [flattenPairs_cons]
      exact (hq.trans (List.prefix_append q.1 q.2)).trans (List.prefix_append _ _)
  have hpairs_flat : (pySplit (flattenPairs (pySplit x).2)).2 = (pySplit x).2 := by
    rw [pySplit_flatten_self x]
  have hbody_guard : ¬ guardMarker <:+: dispT1 ++ (md ++ mdTailPost) :=
    not_infix_concat3 (by decide) (by decide) hmd_guard (by decide)
      ⟨strL "        \"\"\"\n    )\n    return\n\n\n", by decide⟩ (by decide)
  have hlng_disp : lastNoGuard [(m2delim, dispT1 ++ (md ++ mdTailPost))] = true := by
    unfold lastNoGuard
    rw [List.getLast?_singleton]
    dsimp only
    rw [dropWhile_guard_nil_of_not_sub hbody_guard]
    rfl
  by_cases hmo : (parseNotebook x).2.1.any containsMoImport = true
  · have hmo' : ((pySplit x).2.map (fun p => p.1 ++ p.2)).any containsMoImport = true := by
      have hmoc := hmo
      rw [hparse] at hmoc
      simpa using hmoc
    have hout : prepend_markdown x md =
        (pySplit x).1 ++ (reuseMarkdownCell md ++ flattenPairs (pySplit x).2) := by
      unfold prepend_markdown
      dsimp only
      rw [hparse, if_pos hmo']
      simp [flattenPairs, List.append_assoc]
    have hps_out : pySplit (prepend_markdown x md) =
        ((pySplit x).1,
         (m2delim, dispT1 ++ (md ++ mdTailPost)) :: (pySplit x).2) := by
      rw [hout]
      have hmarker : appMarker <+: reuseMarkdownCell md ++ flattenPairs (pySplit x).2 :=
        (marker_prefix_reuseCell md).trans (List.prefix_append _ _)
      rw [pySplit_append (pySplit_pre_nomarker x) (Or.inr hmarker)]
      rw [pySplit_reuseCell md _ hmd_inf hf]
      simp [hpairs_flat]
    have hlng_out : lastNoGuard
        ((m2delim, dispT1 ++ (md ++ mdTailPost)) :: (pySplit x).2) = true := by
      have := lastNoGuard_append [(m2delim, dispT1 ++ (md ++ mdTailPost))]
        (pySplit x).2 hlng_disp h0
      simpa using this
    have hparse_out : parseNotebook (prepend_markdown x md) =
        ((pySplit x).1,
         (m2delim ++ (dispT1 ++ (md ++ mdTailPost))) ::
           (pySplit x).2.map (fun p => p.1 ++ p.2), []) := by
      unfold parseNotebook
      dsimp only
      rw [hps_out, procPairs_lastNoGuard hlng_out]
      rfl
    refine ⟨by rw [hparse], ?_, ?_, ?_⟩
    · rw [hparse_out, if_pos hmo, hparse]
      rfl
    · rw [hparse_out, if_pos hmo, hparse]
      simp
      omega
    · rw [hout, if_pos hmo, hparse]
      unfold reuseMarkdownCell
      simp [flattenPairs, List.append_assoc]
  · have hmo' : ¬ ((pySplit x).2.map (fun p => p.1 ++ p.2)).any containsMoImport = true := by
      have hmoc := hmo
      rw [hparse] at hmoc
      simpa using hmoc
    have hout : prepend_markdown x md =
        (pySplit x).1 ++ (createMarkdownCell md ++ flattenPairs (pySplit x).2) := by
      unfold prepend_markdown
      dsimp only
      rw [hparse, if_neg hmo']
      simp [flattenPairs, List.append_assoc]
    have hps_out : pySplit (prepend_markdown x md) =
        ((pySplit x).1,
         (appMarker, impBody) ::
           (m2delim, dispT1 ++ (md ++ mdTailPost)) :: (pySplit x).2) := by
      rw [hout]
      have hmarker : appMarker <+: createMarkdownCell md ++ flattenPairs (pySplit x).2 :=
        (marker_prefix_createMarkdownCell md).trans (List.prefix_append _ _)
      rw [pySplit_append (pySplit_pre_nomarker x) (Or.inr hmarker)]
      rw [pySplit_createFull md _ hmd_inf hf]
      simp [hpairs_flat]
    have hlng_out : lastNoGuard
        ((appMarker, impBody) ::
          (m2delim, dispT1 ++ (md ++ mdTailPost)) :: (pySplit x).2) = true := by
      have ha2 : lastNoGuard
          [(appMarker, impBody), (m2delim, dispT1 ++ (md ++ mdTailPost))] = true := by
        unfold lastNoGuard
        rw [List.getLast?_cons_cons, List.getLast?_singleton]
        dsimp only
        rw [dropWhile_guard_nil_of_not_sub hbody_guard]
        rfl
      have := lastNoGuard_append
        [(appMarker, impBody), (m2delim, dispT1 ++ (md ++ mdTailPost))]
        (pySplit x).2 ha2 h0
      simpa using this
    have hparse_out : parseNotebook (prepend_markdown x md) =
        ((pySplit x).1,
         (appMarker ++ impBody) ::
           (m2delim ++ (dispT1 ++ (md ++ mdTailPost))) ::
           (pySplit x).2.map (fun p => p.1 ++ p.2), []) := by
      unfold parseNotebook
      dsimp only
      rw [hps_out, procPairs_lastNoGuard hlng_out]
      rfl
    refine ⟨by rw [hparse], ?_, ?_, ?_⟩
    · rw [hparse_out, if_neg hmo, hparse]
      rfl
    · rw [hparse_out, if_neg hmo, hparse]
      simp
      omega
    · rw [hout, if_neg hmo, hparse]
      unfold createMarkdownCell
      simp [flattenPairs, List.append_assoc]

/-- C2 counterexample: the claim fails as stated.  A markdown text containing
the cell marker makes the re-parse yield 4 cells on a 1-cell input with no
reusable import (the claim predicts N+2 = 3); an input with an entry-point
guard parses with a non-empty postamble but the re-parsed output has an empty
one (not byte-identical); and on a 0-cell input a markdown text containing a
guard line makes the output parse with a non-empty postamble while the input's
was empty. -/
theorem prepend_markdown_reparse_cex :
    ((parseNotebook (strL "@app.cell\ndef f():\n    pass")).2.1.length = 1
      ∧ (parseNotebook (strL "@app.cell\ndef f():\n    pass")).2.1.any
          containsMoImport = false
      ∧ (parseNotebook (prepend_markdown (strL "@app.cell\ndef f():\n    pass")
          (strL "@app.cell"))).2.1.length = 4)
    ∧ ((parseNotebook
          (strL "@app.cell\ndef f():\n    pass\nif __name__ == \"m\":\n    r()\n")).2.2
          ≠ []
      ∧ (parseNotebook (prepend_markdown
          (strL "@app.cell\ndef f():\n    pass\nif __name__ == \"m\":\n    r()\n")
          (strL "hi"))).2.2 = [])
    ∧ ((parseNotebook ([] : List Char)).2.1.length = 0
      ∧ (parseNotebook ([] : List Char)).2.2 = []
      ∧ (parseNotebook (prepend_markdown [] (strL "x\nif __name__ z"))).2.2 ≠ []) := by
  exact ⟨⟨by decide, by decide, by decide⟩, ⟨by decide, by decide⟩,
    ⟨by decide, by decide, by decide⟩⟩

theorem prepend_markdown_reparse_witness :
    (parseNotebook (strL "@app.cell\ndef f():\n    pass\n")).2.2 = []
    ∧ parseNotebook (prepend_markdown (strL "@app.cell\ndef f():\n    pass\n")
        (strL "Hello")) =
        ((parseNotebook (strL "@app.cell\ndef f():\n    pass\n")).1,
         (if (parseNotebook (strL "@app.cell\ndef f():\n    pass\n")).2.1.any
              containsMoImport
          then [m2delim ++ (dispT1 ++ (strL "Hello" ++ mdTailPost))]
          else [appMarker ++ impBody,
                m2delim ++ (dispT1 ++ (strL "Hello" ++ mdTailPost))]) ++
           (parseNotebook (strL "@app.cell\ndef f():\n    pass\n")).2.1,
         [])
    ∧ (parseNotebook (prepend_markdown (strL "@app.cell\ndef f():\n    pass\n")
        (strL "Hello"))).2.1.length =
        (if (parseNotebook (strL "@app.cell\ndef f():\n    pass\n")).2.1.any
            containsMoImport then 1 else 2) +
          (parseNotebook (strL "@app.cell\ndef f():\n    pass\n")).2.1.length
    ∧ prepend_markdown (strL "@app.cell\ndef f():\n    pass\n") (strL "Hello") =
        (parseNotebook (strL "@app.cell\ndef f():\n    pass\n")).1 ++
          ((if (parseNotebook (strL "@app.cell\ndef f():\n    pass\n")).2.1.any
              containsMoImport
            then mdReusePre else mdFullPre) ++
            (strL "Hello" ++ (mdTailPost ++
              (parseNotebook (strL "@app.cell\ndef f():\n    pass\n")).2.1.flatten))) :=
  prepend_markdown_reparse (strL "@app.cell\ndef f():\n    pass\n") (strL "Hello")
    (by decide) (by decide) (by decide)
